import Mathlib

/-!
Shallow embedding of `src/pull_optionm_api_data.py`: the expiration-date
generator `get_expiration_dates` and the maturity reconciler
`filter_index_implied_dividend_yield`.

Dates are modelled as `Int` day numbers (days since 1970-01-01), computed
from civil dates by the standard civil-calendar algorithm.  A pandas
DataFrame of observation rows is modelled as a `List Row`; the trading
calendar supplied by the `pandas_market_calendars` collaborator is an
abstract predicate `cal : Int → Bool`.  The unbounded backward-shift
`while` loop of the Python source is modelled with an explicit fuel
parameter, so that the embedding is total; `none` marks an execution on
which the Python loop would not have terminated within `fuel` steps.
-/

/-- Day number (days since 1970-01-01) of the civil date y-m-d, via the
standard civil-calendar algorithm; valid for years ≥ 1. -/
def dayNumber (y m d : Nat) : Int :=
  let yAdj := if m ≤ 2 then y - 1 else y
  let era  := yAdj / 400
  let yoe  := yAdj % 400
  let mp   := (m + 9) % 12
  let doy  := (153 * mp + 2) / 5 + d - 1
  let doe  := yoe * 365 + yoe / 4 - yoe / 100 + doy
  (era * 146097 + doe : Int) - 719468

/-- Calendar month (1..12) of a day number; the month-extraction half of the
civil-from-days algorithm (models pandas `DatetimeIndex.month`). -/
def monthOf (t : Int) : Nat :=
  let z   := (t + 719468).toNat
  let doe := z % 146097
  let yoe := (doe - doe / 1460 + doe / 36524 - doe / 146096) / 365
  let doy := doe - (365 * yoe + yoe / 4 - yoe / 100)
  let mp  := (5 * doy + 2) / 153
  if mp < 10 then mp + 3 else mp - 9

/-- Day number of the third Friday of month m of year y.  Day 1
(1970-01-02) was a Friday, so t is a Friday iff t ≡ 1 (mod 7). -/
def thirdFriday (y m : Nat) : Int :=
  let first := dayNumber y m 1
  first + (1 - first).emod 7 + 14

/-- All (year, month) pairs from (sy, sm) to (ey, em) inclusive, in order. -/
def monthList (sy sm ey em : Nat) : List (Nat × Nat) :=
  let s := sy * 12 + sm - 1
  let e := ey * 12 + em - 1
  (List.range (e + 1 - s)).map (fun i => ((s + i) / 12, (s + i) % 12 + 1))

/-- Inclusive date range of the six civil components (start y/m/d, end y/m/d)
used by `get_expiration_dates` and the reconciler. -/
structure DateRange where
  sy : Nat
  sm : Nat
  sd : Nat
  ey : Nat
  em : Nat
  ed : Nat
deriving DecidableEq, Repr

/-- First day number of a `DateRange`. -/
def DateRange.lo (r : DateRange) : Int := dayNumber r.sy r.sm r.sd

/-- Last day number of a `DateRange`. -/
def DateRange.hi (r : DateRange) : Int := dayNumber r.ey r.em r.ed

/-- Models `pd.date_range(start, end, freq="WOM-3FRI")`: the third Friday of
every month, restricted to those falling inside the inclusive range. -/
def dateRangeWOM3FRI (r : DateRange) : List Int :=
  ((monthList r.sy r.sm r.ey r.em).map (fun p => thirdFriday p.1 p.2)).filter
    (fun t => decide (r.lo ≤ t) && decide (t ≤ r.hi))

/-- Models the backward-shifting `while current_date not in market_open_set`
loop of `get_expiration_dates`, with explicit fuel: at most `fuel` one-day
backward shifts are attempted; `none` means the Python loop would still be
running after `fuel` shifts. -/
def shiftBack (isOpen : Int → Bool) : Nat → Int → Option Int
  | 0, d => if isOpen d then some d else none
  | fuel + 1, d => if isOpen d then some d else shiftBack isOpen fuel (d - 1)

/-- Option-valued map over a list, failing if any element fails; models the
Python `for i in range(len(...))` adjustment loop, which updates each list
slot independently. -/
def mapOption (f : α → Option β) : List α → Option (List β)
  | [] => some []
  | a :: l =>
    match f a, mapOption f l with
    | some b, some bs => some (b :: bs)
    | _, _ => none

/-- Membership test of the Python `market_open_set`: the trading calendar
restricted to the requested range, as built by
`ushol.valid_days(start_date=start_date, end_date=end_date)`. -/
def marketOpen (cal : Int → Bool) (r : DateRange) (t : Int) : Bool :=
  cal t && decide (r.lo ≤ t) && decide (t ≤ r.hi)

/-- Embedding of `get_expiration_dates(start_date, end_date,
expiration_months, freq="WOM-3FRI")`: third Fridays of the range, kept when
their month is in `expiration_months`, each shifted backward to the nearest
day of the range-restricted trading calendar.  `cal` is the trading-calendar
collaborator and `fuel` bounds the otherwise unbounded backward shift. -/
def get_expiration_dates (cal : Int → Bool) (fuel : Nat) (r : DateRange)
    (expiration_months : List Nat) : Option (List Int) :=
  let all_target_dates := dateRangeWOM3FRI r
  let expiration_target_dates :=
    all_target_dates.filter (fun t => expiration_months.contains (monthOf t))
  mapOption (shiftBack (marketOpen cal r) fuel) expiration_target_dates

/-- Observation row of the vendor query in `pull_index_implied_dividend_yield`:
secid, date, cusip, ticker, sic, index_flag, exchange_d, class, issue_type,
industry_group, expiration, rate.  `date` and `expiration` are day numbers;
`rate` is the implied dividend yield, a numeric value the reconciler never
inspects nor alters, so it is modelled by an opaque-to-the-algorithm
integer-scaled numeric column. -/
structure Row where
  secid : Nat
  date : Int
  cusip : String
  ticker : String
  sic : Nat
  index_flag : Nat
  exchange_d : Nat
  class_ : Nat
  issue_type : String
  industry_group : Nat
  expiration : Int
  rate : Int
deriving DecidableEq, Repr

/-- Models `df_["expiration"].replace(dict(zip(all_third_fridays_tom.date,
all_third_fridays.date)))` at a single value: if e equals some canonical
date t plus one day, it becomes t; otherwise it passes through unchanged. -/
def remapExpiration (thirds : List Int) (e : Int) : Int :=
  match thirds.find? (fun t => t + 1 == e) with
  | some t => t
  | none => e

/-- The rewrite stage of the reconciler: every row's expiration is pushed
through the remap table built from the canonical dates. -/
def reconcileRewrite (thirds : List Int) (df : List Row) : List Row :=
  df.map (fun r => { r with expiration := remapExpiration thirds r.expiration })

/-- Models `filtered_df.groupby("date").head(n)` with accumulator `seen`
recording the dates of rows already processed: a row is kept when fewer than
n earlier rows share its observation date, and original order is preserved. -/
def groupbyDateHead (n : Nat) : List Int → List Row → List Row
  | _, [] => []
  | seen, r :: rs =>
    if seen.count r.date < n then r :: groupbyDateHead n (r.date :: seen) rs
    else groupbyDateHead n (r.date :: seen) rs

/-- The canonical-membership filter stage of the reconciler, `filtered_df =
df_[df_["expiration"].isin(all_third_fridays.date)]`, applied after the
rewrite stage. -/
def survivorRows (thirds : List Int) (df : List Row) : List Row :=
  (reconcileRewrite thirds df).filter (fun row => thirds.contains row.expiration)

/-- The reconciler body once the canonical dates are known: rewrite, filter
to canonical membership, then keep the first two rows per observation date
(`filtered_df.groupby("date").head(2)`). -/
def reconcileWithThirds (thirds : List Int) (df : List Row) : List Row :=
  groupbyDateHead 2 [] (survivorRows thirds df)

/-- Embedding of `filter_index_implied_dividend_yield(df, start_date,
end_date)`: build the canonical quarterly dates for the range, rewrite each
row's expiration through the day-after remap table, keep only rows whose
expiration is canonical, then keep the first two rows of each observation
date.  Returns `none` exactly when the generator's backward shift exhausts
its fuel. -/
def filter_index_implied_dividend_yield (cal : Int → Bool) (fuel : Nat)
    (r : DateRange) (df : List Row) : Option (List Row) :=
  (get_expiration_dates cal fuel r [3, 6, 9, 12]).map
    (fun all_third_fridays => reconcileWithThirds all_third_fridays df)

/-- Modelled from the spec: the trading-calendar collaborator
(`mcal.get_calendar("Financial_Markets_US")`), whose data lives outside the
repository.  Per the spec it supplies the ordered set of valid trading dates
(holidays excluded) for the market; for 2020 this is the weekdays minus the
US market holidays of that year. -/
def usCal2020 (t : Int) : Bool :=
  !(t.emod 7 == 2 || t.emod 7 == 3) &&
  !([dayNumber 2020 1 1, dayNumber 2020 1 20, dayNumber 2020 2 17,
     dayNumber 2020 4 10, dayNumber 2020 5 25, dayNumber 2020 7 3,
     dayNumber 2020 9 7, dayNumber 2020 11 26, dayNumber 2020 12 25].contains t)

/-- The calendar-year-2020 date range used by the scenario claims. -/
def range2020 : DateRange := ⟨2020, 1, 1, 2020, 12, 31⟩

/-! Helper lemmas about the backward shift, the option-valued map, and the
grouped head-2 selection. -/

/-- A successful backward shift lands on an open day, at most `fuel` days
before the nominal date and never after it. -/
theorem shiftBack_spec (p : Int → Bool) (fuel : Nat) :
    ∀ d v : Int, shiftBack p fuel d = some v →
      p v = true ∧ d - fuel ≤ v ∧ v ≤ d := by
  induction fuel with
  | zero =>
    intro d v h
    unfold shiftBack at h
    split at h
    next hp => cases h; exact ⟨hp, by omega, le_refl _⟩
    next => cases h
  | succ n ih =>
    intro d v h
    unfold shiftBack at h
    split at h
    next hp => cases h; exact ⟨hp, by omega, le_refl _⟩
    next =>
      obtain ⟨h1, h2, h3⟩ := ih (d - 1) v h
      exact ⟨h1, by omega, by omega⟩

/-- If some open day lies within `fuel` days on or before the nominal date,
the backward shift succeeds and lands on or after that day. -/
theorem shiftBack_finds (p : Int → Bool) (fuel : Nat) :
    ∀ d u : Int, p u = true → d - fuel ≤ u → u ≤ d →
      ∃ v, shiftBack p fuel d = some v ∧ u ≤ v ∧ v ≤ d := by
  induction fuel with
  | zero =>
    intro d u hu h1 h2
    have he : u = d := by omega
    subst he
    exact ⟨u, by unfold shiftBack; simp [hu], le_refl _, le_refl _⟩
  | succ n ih =>
    intro d u hu h1 h2
    by_cases hd : p d = true
    · exact ⟨d, by unfold shiftBack; simp [hd], h2, le_refl _⟩
    · have hne : u ≠ d := fun e => hd (e ▸ hu)
      obtain ⟨v, hv, h3, h4⟩ := ih (d - 1) u hu (by omega) (by omega)
      refine ⟨v, ?_, h3, by omega⟩
      unfold shiftBack
      simp [hd, hv]

/-- If no day on or before the nominal date is open, the backward shift
fails for every fuel bound: the Python loop would run forever. -/
theorem shiftBack_none (p : Int → Bool) :
    ∀ (fuel : Nat) (d : Int), (∀ t, t ≤ d → p t = false) →
      shiftBack p fuel d = none := by
  intro fuel
  induction fuel with
  | zero =>
    intro d h
    unfold shiftBack
    simp [h d (le_refl d)]
  | succ n ih =>
    intro d h
    unfold shiftBack
    simp [h d (le_refl d)]
    exact ih (d - 1) (fun t ht => h t (by omega))

/-- The backward shift depends only on the pointwise behaviour of the
open-day predicate. -/
theorem shiftBack_congr (p q : Int → Bool) (h : ∀ t, p t = q t) :
    ∀ (fuel : Nat) (d : Int), shiftBack p fuel d = shiftBack q fuel d := by
  intro fuel
  induction fuel with
  | zero => intro d; unfold shiftBack; rw [h d]
  | succ n ih => intro d; unfold shiftBack; rw [h d, ih (d - 1)]

/-- Success of `mapOption` is elementwise success, in order. -/
theorem mapOption_eq_some_iff (f : α → Option β) :
    ∀ (l : List α) (res : List β),
      mapOption f l = some res ↔ List.Forall₂ (fun a b => f a = some b) l res := by
  intro l
  induction l with
  | nil =>
    intro res
    constructor
    · intro h
      unfold mapOption at h
      cases h
      exact List.Forall₂.nil
    · intro h
      cases h
      rfl
  | cons a l ih =>
    intro res
    constructor
    · intro h
      unfold mapOption at h
      cases hfa : f a with
      | none => rw [hfa] at h; cases h
      | some b =>
        cases hml : mapOption f l with
        | none => rw [hfa, hml] at h; cases h
        | some bs =>
          rw [hfa, hml] at h
          cases h
          exact List.Forall₂.cons hfa ((ih bs).mp hml)
    · intro h
      cases h with
      | cons hab htl =>
        unfold mapOption
        rw [hab, (ih _).mpr htl]

/-- If every element maps successfully to a value satisfying P, the whole
`mapOption` succeeds with a Forall₂-related result. -/
theorem mapOption_forall_some (f : α → Option β) (P : α → β → Prop) :
    ∀ l : List α, (∀ a ∈ l, ∃ b, f a = some b ∧ P a b) →
      ∃ res, mapOption f l = some res ∧ List.Forall₂ P l res := by
  intro l
  induction l with
  | nil => intro _; exact ⟨[], rfl, List.Forall₂.nil⟩
  | cons a l ih =>
    intro h
    obtain ⟨b, hb, hPb⟩ := h a (List.mem_cons_self a l)
    obtain ⟨res, hres, hP⟩ := ih (fun x hx => h x (List.mem_cons_of_mem a hx))
    refine ⟨b :: res, ?_, List.Forall₂.cons hPb hP⟩
    unfold mapOption
    rw [hb, hres]

/-- `mapOption` depends only on the function's behaviour on the list. -/
theorem mapOption_congr (f g : α → Option β) :
    ∀ l : List α, (∀ a ∈ l, f a = g a) → mapOption f l = mapOption g l := by
  intro l
  induction l with
  | nil => intro _; rfl
  | cons a l ih =>
    intro h
    unfold mapOption
    rw [h a (List.mem_cons_self a l), ih (fun x hx => h x (List.mem_cons_of_mem a hx))]

/-- The grouped head-n selection restricted to one observation date is the
first (n - previously seen occurrences) rows of that date's group. -/
theorem groupbyDateHead_filter (n : Nat) :
    ∀ (l : List Row) (seen : List Int) (d : Int),
      (groupbyDateHead n seen l).filter (fun row => row.date == d)
        = (l.filter (fun row => row.date == d)).take (n - seen.count d) := by
  intro l
  induction l with
  | nil => intro seen d; simp [groupbyDateHead]
  | cons r rs ih =>
    intro seen d
    unfold groupbyDateHead
    by_cases hcnt : seen.count r.date < n
    · rw [if_pos hcnt]
      by_cases hd : r.date = d
      · subst hd
        rw [List.filter_cons, List.filter_cons]
        simp only [beq_self_eq_true, if_true]
        rw [ih]
        have h1 : (r.date :: seen).count r.date = seen.count r.date + 1 := by
          simp [List.count_cons]
        have h2 : n - seen.count r.date = (n - (seen.count r.date + 1)) + 1 := by
          omega
        rw [h1, h2, List.take_succ_cons]
      · have hbeq : (r.date == d) = false := by simp [hd]
        rw [List.filter_cons, List.filter_cons, hbeq]
        simp only [Bool.false_eq_true, if_false]
        rw [ih]
        have h1 : (r.date :: seen).count d = seen.count d := by
          simp [List.count_cons, hbeq]
        rw [h1]
    · rw [if_neg hcnt]
      rw [ih]
      by_cases hd : r.date = d
      · subst hd
        have h1 : (r.date :: seen).count r.date = seen.count r.date + 1 := by
          simp [List.count_cons]
        have h2 : n - (seen.count r.date + 1) = 0 := by omega
        have h3 : n - seen.count r.date = 0 := by omega
        rw [List.filter_cons]
        simp only [beq_self_eq_true, if_true]
        rw [h1, h2, h3, List.take_zero, List.take_zero]
      · have hbeq : (r.date == d) = false := by simp [hd]
        rw [List.filter_cons, hbeq]
        simp only [Bool.false_eq_true, if_false]
        have h1 : (r.date :: seen).count d = seen.count d := by
          simp [List.count_cons, hbeq]
        rw [h1]

/-- The grouped head-n selection is an order-preserving selection of rows. -/
theorem groupbyDateHead_sublist (n : Nat) :
    ∀ (l : List Row) (seen : List Int), (groupbyDateHead n seen l).Sublist l := by
  intro l
  induction l with
  | nil => intro seen; simp [groupbyDateHead]
  | cons r rs ih =>
    intro seen
    unfold groupbyDateHead
    by_cases h : seen.count r.date < n
    · rw [if_pos h]; exact (ih _).cons₂ r
    · rw [if_neg h]; exact (ih _).cons r

/-- When every date's group, together with what was already seen, fits
within n rows, the grouped head-n selection keeps everything. -/
theorem groupbyDateHead_eq_self (n : Nat) :
    ∀ (l : List Row) (seen : List Int),
      (∀ d : Int, (l.filter (fun row => row.date == d)).length + seen.count d ≤ n) →
      groupbyDateHead n seen l = l := by
  intro l
  induction l with
  | nil => intro seen _; simp [groupbyDateHead]
  | cons r rs ih =>
    intro seen h
    unfold groupbyDateHead
    have h1 : seen.count r.date < n := by
      have hr := h r.date
      rw [List.filter_cons] at hr
      simp only [beq_self_eq_true, if_true, List.length_cons] at hr
      omega
    rw [if_pos h1, ih]
    intro d
    have hd := h d
    by_cases he : r.date = d
    · subst he
      rw [List.filter_cons] at hd
      simp only [beq_self_eq_true, if_true, List.length_cons] at hd
      have : (r.date :: seen).count r.date = seen.count r.date + 1 := by
        simp [List.count_cons]
      omega
    · have hbeq : (r.date == d) = false := by simp [he]
      rw [List.filter_cons, hbeq] at hd
      simp only [Bool.false_eq_true, if_false] at hd
      have : (r.date :: seen).count d = seen.count d := by
        simp [List.count_cons, hbeq]
      omega

/-- Remapping a canonical date plus one day yields that canonical date. -/
theorem remapExpiration_shift (thirds : List Int) (t : Int) (ht : t ∈ thirds) :
    remapExpiration thirds (t + 1) = t := by
  unfold remapExpiration
  cases h : thirds.find? (fun u => u + 1 == t + 1) with
  | none =>
    rw [List.find?_eq_none] at h
    exact absurd (beq_self_eq_true (t + 1)) (h t ht)
  | some u =>
    have hp := List.find?_some h
    have he : u + 1 = t + 1 := by simpa using hp
    show u = t
    omega

/-- A value that is not a canonical date plus one day passes through the
remap table unchanged. -/
theorem remapExpiration_id (thirds : List Int) (e : Int)
    (h : ∀ t ∈ thirds, t + 1 ≠ e) : remapExpiration thirds e = e := by
  unfold remapExpiration
  have hn : thirds.find? (fun t => t + 1 == e) = none := by
    rw [List.find?_eq_none]
    intro x hx hbe
    exact h x hx (eq_of_beq hbe)
  rw [hn]

/-- A successful reconciliation is the body applied to the generated
canonical dates. -/
theorem filter_eq_reconcile (cal : Int → Bool) (fuel : Nat) (rng : DateRange)
    (df : List Row) (thirds : List Int) (out : List Row)
    (hg : get_expiration_dates cal fuel rng [3, 6, 9, 12] = some thirds)
    (hf : filter_index_implied_dividend_yield cal fuel rng df = some out) :
    out = reconcileWithThirds thirds df := by
  unfold filter_index_implied_dividend_yield at hf
  rw [hg, Option.map_some'] at hf
  exact (Option.some.inj hf).symm

/-- Every reconciled row has a canonical expiration. -/
theorem mem_reconcile_expiration (thirds : List Int) (df : List Row) (row : Row)
    (hrow : row ∈ reconcileWithThirds thirds df) : row.expiration ∈ thirds := by
  unfold reconcileWithThirds survivorRows at hrow
  have h1 := (groupbyDateHead_sublist 2 _ []).mem hrow
  have h2 := List.of_mem_filter h1
  simpa using h2

/-! Concrete fixtures for witness instances of the claim theorems. -/

/-- Row builder for concrete fixtures: an SPX observation row with the given
observation date and expiration (day numbers). -/
def mkRow (d e : Int) : Row :=
  ⟨108105, d, "64882210", "SPX", 9999, 1, 0, 0, "0", 500, e, 183⟩

/-- Raw row dated 2020-03-02 with day-after expiration 2020-03-21. -/
def sampleRowMar21 : Row := mkRow (dayNumber 2020 3 2) (dayNumber 2020 3 21)

/-- Raw row dated 2020-03-02 with non-quarterly expiration 2020-04-17. -/
def sampleRowApr17 : Row := mkRow (dayNumber 2020 3 2) (dayNumber 2020 4 17)

/-- Three same-date rows carrying the first three quarterly maturities of
2020 in day-after encoding, ascending. -/
def dfThree : List Row := [mkRow 18324 18342, mkRow 18324 18433, mkRow 18324 18524]

/-- The reconciled output for `dfThree`: the first two maturities, with
expirations rewritten to canonical dates. -/
def outThree : List Row := [mkRow 18324 18341, mkRow 18324 18432]

/-- The 2020 canonical quarterly expiration dates as day numbers. -/
def thirds2020 : List Int := [18341, 18432, 18523, 18614]

/-- A range (2020-01-01 to 2020-02-01) too short to contain any quarterly
expiration. -/
def shortRange : DateRange := ⟨2020, 1, 1, 2020, 2, 1⟩

/-- C1: for every raw observation row, the reconciler's rewrite stage maps
the row through the remap table: an expiration equal to a canonical date
plus one calendar day is rewritten to that canonical date, and an
expiration that is no canonical date plus one day passes through
unchanged. -/
theorem C1_remap_rewrite (cal : Int → Bool) (fuel : Nat) (rng : DateRange)
    (thirds : List Int) (df : List Row) (row : Row)
    (_hg : get_expiration_dates cal fuel rng [3, 6, 9, 12] = some thirds)
    (hrow : row ∈ df) :
    ({ row with expiration := remapExpiration thirds row.expiration }
        ∈ reconcileRewrite thirds df) ∧
    (∀ t ∈ thirds, row.expiration = t + 1 →
        remapExpiration thirds row.expiration = t) ∧
    ((∀ t ∈ thirds, t + 1 ≠ row.expiration) →
        remapExpiration thirds row.expiration = row.expiration) := by
  refine ⟨List.mem_map_of_mem _ hrow, ?_, ?_⟩
  · intro t ht he
    rw [he]
    exact remapExpiration_shift thirds t ht
  · intro h
    exact remapExpiration_id thirds row.expiration h

/-- Witness for C1 at the 2020 canonical dates: the day-after expiration
2020-03-21 is rewritten to 2020-03-20, and the April expiration 2020-04-17
passes through unchanged. -/
theorem C1_remap_rewrite_witness :
    remapExpiration thirds2020 sampleRowMar21.expiration = 18341 ∧
    remapExpiration thirds2020 sampleRowApr17.expiration
      = sampleRowApr17.expiration :=
  ⟨(C1_remap_rewrite usCal2020 10 range2020 thirds2020 [sampleRowMar21]
      sampleRowMar21 (by decide) (by decide)).2.1 18341 (by decide) (by decide),
   (C1_remap_rewrite usCal2020 10 range2020 thirds2020 [sampleRowApr17]
      sampleRowApr17 (by decide) (by decide)).2.2 (by decide)⟩

/-- C2: every row of the reconciler's output has an expiration belonging to
the canonical quarterly expiration set for the range, and consequently,
whenever the canonical set consists of quarter-month dates, no output row's
expiration falls in a non-quarter month such as January or April. -/
theorem C2_output_canonical (cal : Int → Bool) (fuel : Nat) (rng : DateRange)
    (thirds : List Int) (df out : List Row) (row : Row)
    (hg : get_expiration_dates cal fuel rng [3, 6, 9, 12] = some thirds)
    (hf : filter_index_implied_dividend_yield cal fuel rng df = some out)
    (hrow : row ∈ out) :
    row.expiration ∈ thirds ∧
    ((∀ t ∈ thirds, monthOf t ∈ ([3, 6, 9, 12] : List Nat)) →
        monthOf row.expiration ∈ ([3, 6, 9, 12] : List Nat)) := by
  have hout := filter_eq_reconcile cal fuel rng df thirds out hg hf
  subst hout
  have hmem := mem_reconcile_expiration thirds df row hrow
  exact ⟨hmem, fun h => h _ hmem⟩

/-- Witness for C2 on the three-row 2020 fixture: the first output row's
expiration is the canonical date 2020-03-20. -/
theorem C2_output_canonical_witness :
    (mkRow 18324 18341).expiration ∈ thirds2020 :=
  (C2_output_canonical usCal2020 10 range2020 thirds2020 dfThree
      (reconcileWithThirds thirds2020 dfThree) (mkRow 18324 18341)
      (by decide) (by decide) (by decide)).1

/-- C3: restricted to any observation date, the reconciler's output is
exactly the first two surviving candidate rows of that date: with at least
two candidates exactly two are retained, with fewer than two all are
retained, and if the candidates are in ascending-maturity order so is the
retained pair. -/
theorem C3_first_two (cal : Int → Bool) (fuel : Nat) (rng : DateRange)
    (thirds : List Int) (df out : List Row) (d : Int)
    (hg : get_expiration_dates cal fuel rng [3, 6, 9, 12] = some thirds)
    (hf : filter_index_implied_dividend_yield cal fuel rng df = some out) :
    (out.filter (fun row => row.date == d)
        = ((survivorRows thirds df).filter (fun row => row.date == d)).take 2) ∧
    (2 ≤ ((survivorRows thirds df).filter (fun row => row.date == d)).length →
        (out.filter (fun row => row.date == d)).length = 2) ∧
    (((survivorRows thirds df).filter (fun row => row.date == d)).length < 2 →
        out.filter (fun row => row.date == d)
          = (survivorRows thirds df).filter (fun row => row.date == d)) ∧
    (((survivorRows thirds df).filter (fun row => row.date == d)).Pairwise
        (fun a b => a.expiration ≤ b.expiration) →
      (out.filter (fun row => row.date == d)).Pairwise
        (fun a b => a.expiration ≤ b.expiration)) := by
  have hout := filter_eq_reconcile cal fuel rng df thirds out hg hf
  subst hout
  have hmain : (reconcileWithThirds thirds df).filter (fun row => row.date == d)
      = ((survivorRows thirds df).filter (fun row => row.date == d)).take 2 := by
    unfold reconcileWithThirds
    rw [groupbyDateHead_filter]
    simp [List.count_nil]
  refine ⟨hmain, ?_, ?_, ?_⟩
  · intro h2
    rw [hmain, List.length_take]
    omega
  · intro h2
    rw [hmain]
    exact List.take_of_length_le (by omega)
  · intro hp
    rw [hmain]
    exact hp.sublist (List.take_sublist 2 _)

/-- Witness for C3 on the three-row 2020 fixture: the date 2020-02-02 has
three surviving candidates and exactly two rows are retained. -/
theorem C3_first_two_witness :
    ((reconcileWithThirds thirds2020 dfThree).filter
        (fun row => row.date == (18324 : Int))).length = 2 :=
  (C3_first_two usCal2020 10 range2020 thirds2020 dfThree
      (reconcileWithThirds thirds2020 dfThree) 18324
      (by decide) (by decide)).2.1 (by decide)

/-- C4: whenever the trading calendar has an open day within 4 calendar
days on or before each nominal target third Friday (as the US market
calendar does), the generator succeeds and returns exactly one date per
target month in range, pairwise matched to the nominal third Fridays: each
returned date is an open trading day of the range and lies within 4
calendar days on or before its nominal third Friday. -/
theorem C4_generator (cal : Int → Bool) (fuel : Nat) (rng : DateRange)
    (ms : List Nat)
    (hfuel : 4 ≤ fuel)
    (hgap : ∀ t ∈ (dateRangeWOM3FRI rng).filter (fun t => ms.contains (monthOf t)),
        ∃ u, marketOpen cal rng u = true ∧ t - 4 ≤ u ∧ u ≤ t) :
    ∃ res, get_expiration_dates cal fuel rng ms = some res ∧
      List.Forall₂
        (fun t v => marketOpen cal rng v = true ∧ t - 4 ≤ v ∧ v ≤ t)
        ((dateRangeWOM3FRI rng).filter (fun t => ms.contains (monthOf t))) res := by
  simp only [get_expiration_dates]
  apply mapOption_forall_some
  intro t ht
  obtain ⟨u, hu, h1, h2⟩ := hgap t ht
  obtain ⟨v, hv, h3, h4⟩ :=
    shiftBack_finds (marketOpen cal rng) fuel t u hu (by omega) h2
  obtain ⟨hov, _, _⟩ := shiftBack_spec (marketOpen cal rng) fuel t v hv
  exact ⟨v, hv, hov, by omega, h4⟩

/-- Witness for C4 on the 2020 range with the US calendar: the four
quarterly targets each have an open day within 4 days, so the generator
succeeds with the pairwise guarantees. -/
theorem C4_generator_witness :
    ∃ res, get_expiration_dates usCal2020 10 range2020 [3, 6, 9, 12] = some res ∧
      List.Forall₂
        (fun t v => marketOpen usCal2020 range2020 v = true ∧ t - 4 ≤ v ∧ v ≤ t)
        ((dateRangeWOM3FRI range2020).filter
          (fun t => [3, 6, 9, 12].contains (monthOf t))) res :=
  C4_generator usCal2020 10 range2020 [3, 6, 9, 12] (by decide) (by
    intro t ht
    have key : ∀ s : Int, marketOpen usCal2020 range2020 s = true →
        ∃ u, marketOpen usCal2020 range2020 u = true ∧ s - 4 ≤ u ∧ u ≤ s :=
      fun s hs => ⟨s, hs, by omega, le_refl s⟩
    rw [show (dateRangeWOM3FRI range2020).filter
          (fun t => [3, 6, 9, 12].contains (monthOf t))
        = [18341, 18432, 18523, 18614] from by decide] at ht
    fin_cases ht
    · exact key 18341 (by decide)
    · exact key 18432 (by decide)
    · exact key 18523 (by decide)
    · exact key 18614 (by decide))

/-- C5: the reconciler is idempotent on its own output whenever no two
canonical dates are consecutive calendar days (always true of quarterly
expirations): re-running it drops no row and rewrites no expiration. -/
theorem C5_idempotent (cal : Int → Bool) (fuel : Nat) (rng : DateRange)
    (thirds : List Int) (df out : List Row)
    (hg : get_expiration_dates cal fuel rng [3, 6, 9, 12] = some thirds)
    (hsep : ∀ t ∈ thirds, t + 1 ∉ thirds)
    (hf : filter_index_implied_dividend_yield cal fuel rng df = some out) :
    filter_index_implied_dividend_yield cal fuel rng out = some out := by
  have hout := filter_eq_reconcile cal fuel rng df thirds out hg hf
  have hcan : ∀ row ∈ out, row.expiration ∈ thirds := by
    intro row hrow
    rw [hout] at hrow
    exact mem_reconcile_expiration thirds df row hrow
  have hrw : reconcileRewrite thirds out = out := by
    unfold reconcileRewrite
    have hmap : ∀ row ∈ out,
        ({ row with expiration := remapExpiration thirds row.expiration }) = row := by
      intro row hrow
      have hid : remapExpiration thirds row.expiration = row.expiration :=
        remapExpiration_id thirds row.expiration
          (fun t ht he => hsep t ht (he ▸ hcan row hrow))
      rw [hid]
    rw [List.map_congr_left hmap, List.map_id']
  have hfil : out.filter (fun row => thirds.contains row.expiration) = out :=
    List.filter_eq_self.mpr
      (fun row hrow => List.elem_eq_true_of_mem (hcan row hrow))
  have hlen : ∀ d : Int, (out.filter (fun row => row.date == d)).length ≤ 2 := by
    intro d
    rw [hout]
    unfold reconcileWithThirds
    rw [groupbyDateHead_filter, List.length_take]
    simp [List.count_nil]
  have hgrp : groupbyDateHead 2 [] out = out := by
    apply groupbyDateHead_eq_self
    intro d
    rw [List.count_nil]
    have := hlen d
    omega
  unfold filter_index_implied_dividend_yield
  rw [hg, Option.map_some']
  unfold reconcileWithThirds survivorRows
  rw [hrw, hfil, hgrp]

/-- Witness for C5 on the three-row 2020 fixture: re-running the reconciler
on its two-row output returns it unchanged. -/
theorem C5_idempotent_witness :
    filter_index_implied_dividend_yield usCal2020 10 range2020 outThree
      = some outThree :=
  C5_idempotent usCal2020 10 range2020 thirds2020 dfThree outThree
    (by decide) (by decide) (by decide)

/-- Counterexample for C6: with a trading calendar that has no valid day on
or before the nominal third Friday of March 2020, the backward-adjustment
search is still running after the 10 attempts the claim allows, and the
generator yields no result — no error value distinct from non-termination
exists in the code. -/
theorem C6_counterexample :
    shiftBack (marketOpen (fun _ => false) range2020) 10 (thirdFriday 2020 3)
        = none ∧
    get_expiration_dates (fun _ => false) 10 range2020 [3, 6, 9, 12] = none := by
  decide

/-- C6 amended: the backward-adjustment search in `get_expiration_dates` is
unbounded; on a trading calendar with no valid day on or before a nominal
expiration it fails to produce a value after any number of attempts — the
source loops indefinitely and never raises an error. -/
theorem C6_unbounded_search (cal : Int → Bool) (rng : DateRange) (d : Int)
    (fuel : Nat)
    (h : ∀ t, t ≤ d → marketOpen cal rng t = false) :
    shiftBack (marketOpen cal rng) fuel d = none :=
  shiftBack_none (marketOpen cal rng) fuel d h

/-- Witness for the amended C6 at the all-closed calendar: even 1000
attempts fail on the March 2020 nominal expiration. -/
theorem C6_unbounded_search_witness :
    shiftBack (marketOpen (fun _ => false) range2020) 1000 (thirdFriday 2020 3)
      = none :=
  C6_unbounded_search (fun _ => false) range2020 (thirdFriday 2020 3) 1000
    (fun _ _ => rfl)

/-- Counterexample for C7: a range from 2020-01-01 to 2020-02-01 yields
zero canonical expiration dates, yet the reconciler returns an empty table
silently rather than raising any error. -/
theorem C7_counterexample :
    get_expiration_dates usCal2020 10 shortRange [3, 6, 9, 12] = some [] ∧
    filter_index_implied_dividend_yield usCal2020 10 shortRange
        [sampleRowMar21] = some [] := by
  decide

/-- C7 amended: when the requested date range yields zero canonical
expiration dates, the reconciler returns an empty table for every input;
no error is raised. -/
theorem C7_empty_silent (cal : Int → Bool) (fuel : Nat) (rng : DateRange)
    (df : List Row)
    (h : get_expiration_dates cal fuel rng [3, 6, 9, 12] = some []) :
    filter_index_implied_dividend_yield cal fuel rng df = some [] := by
  unfold filter_index_implied_dividend_yield
  rw [h, Option.map_some']
  unfold reconcileWithThirds survivorRows
  have hnil : (reconcileRewrite [] df).filter
      (fun row => ([] : List Int).contains row.expiration) = [] := by
    apply List.filter_eq_nil_iff.mpr
    intro a _
    simp [List.contains]
  rw [hnil]
  rfl

/-- Witness for the amended C7 at the short 2020 range. -/
theorem C7_empty_silent_witness :
    filter_index_implied_dividend_yield usCal2020 10 shortRange [sampleRowApr17]
      = some [] :=
  C7_empty_silent usCal2020 10 shortRange [sampleRowApr17] (by decide)

/-- C8: on 2020-01-01..2020-12-31 with the US market calendar, the canonical
set is exactly {2020-03-20, 2020-06-19, 2020-09-18, 2020-12-18}; a raw row
dated 2020-03-02 with expiration 2020-03-21 is rewritten to 2020-03-20 and
retained, while one with expiration 2020-04-17 is dropped entirely. -/
theorem C8_scenario_2020 :
    get_expiration_dates usCal2020 10 range2020 [3, 6, 9, 12]
      = some [dayNumber 2020 3 20, dayNumber 2020 6 19,
              dayNumber 2020 9 18, dayNumber 2020 12 18] ∧
    filter_index_implied_dividend_yield usCal2020 10 range2020
        [sampleRowMar21, sampleRowApr17]
      = some [{ sampleRowMar21 with expiration := dayNumber 2020 3 20 }] := by
  decide

/-- C9: the generator/reconciler pair is a pure function of its declared
inputs — two calls with the same rows, the same range, and trading
calendars that agree on the range's snapshot (the only part either function
consults) produce identical outputs, with no dependence on any other
state. -/
theorem C9_deterministic (cal1 cal2 : Int → Bool) (fuel : Nat)
    (rng : DateRange) (ms : List Nat) (df : List Row)
    (h : ∀ t : Int, rng.lo ≤ t → t ≤ rng.hi → cal1 t = cal2 t) :
    get_expiration_dates cal1 fuel rng ms = get_expiration_dates cal2 fuel rng ms ∧
    filter_index_implied_dividend_yield cal1 fuel rng df
      = filter_index_implied_dividend_yield cal2 fuel rng df := by
  have hmo : ∀ t, marketOpen cal1 rng t = marketOpen cal2 rng t := by
    intro t
    unfold marketOpen
    by_cases h1 : rng.lo ≤ t
    · by_cases h2 : t ≤ rng.hi
      · rw [h t h1 h2]
      · simp [h2]
    · simp [h1]
  have hgen : ∀ months : List Nat,
      get_expiration_dates cal1 fuel rng months
        = get_expiration_dates cal2 fuel rng months := by
    intro months
    simp only [get_expiration_dates]
    exact mapOption_congr _ _ _ (fun a _ => shiftBack_congr _ _ hmo fuel a)
  refine ⟨hgen ms, ?_⟩
  unfold filter_index_implied_dividend_yield
  rw [hgen [3, 6, 9, 12]]

/-- A 2020 calendar padded with extra open days strictly before the range,
used to witness that only the range's snapshot matters. -/
def usCal2020Padded (t : Int) : Bool :=
  usCal2020 t || decide (t < range2020.lo)

/-- Witness for C9: the US 2020 calendar and its padded variant agree on
the 2020 snapshot, so generator and reconciler outputs coincide. -/
theorem C9_deterministic_witness :
    get_expiration_dates usCal2020 10 range2020 [3, 6, 9, 12]
        = get_expiration_dates usCal2020Padded 10 range2020 [3, 6, 9, 12] ∧
    filter_index_implied_dividend_yield usCal2020 10 range2020 [sampleRowMar21]
        = filter_index_implied_dividend_yield usCal2020Padded 10 range2020
            [sampleRowMar21] :=
  C9_deterministic usCal2020 usCal2020Padded 10 range2020 [3, 6, 9, 12]
    [sampleRowMar21]
    (fun t h1 _ => by
      unfold usCal2020Padded
      rw [decide_eq_false (by omega : ¬ t < range2020.lo), Bool.or_false])

/-- C10: the reconciler computes its output from a copy of the input table
without mutating it — the output is an order-preserving selection of the
rewritten copy (so output rows keep the input's relative order), and every
output row agrees with its source input row on every field other than
expiration, which carries the remapped value. -/
theorem C10_frame (cal : Int → Bool) (fuel : Nat) (rng : DateRange)
    (thirds : List Int) (df out : List Row)
    (hg : get_expiration_dates cal fuel rng [3, 6, 9, 12] = some thirds)
    (hf : filter_index_implied_dividend_yield cal fuel rng df = some out) :
    out.Sublist (reconcileRewrite thirds df) ∧
    ∀ row ∈ out, ∃ src ∈ df,
      row.secid = src.secid ∧ row.date = src.date ∧ row.cusip = src.cusip ∧
      row.ticker = src.ticker ∧ row.sic = src.sic ∧
      row.index_flag = src.index_flag ∧ row.exchange_d = src.exchange_d ∧
      row.class_ = src.class_ ∧ row.issue_type = src.issue_type ∧
      row.industry_group = src.industry_group ∧ row.rate = src.rate ∧
      row.expiration = remapExpiration thirds src.expiration := by
  have hout := filter_eq_reconcile cal fuel rng df thirds out hg hf
  subst hout
  constructor
  · unfold reconcileWithThirds survivorRows
    exact (groupbyDateHead_sublist 2 _ []).trans (List.filter_sublist _)
  · intro row hrow
    unfold reconcileWithThirds survivorRows at hrow
    have h1 := (groupbyDateHead_sublist 2 _ []).mem hrow
    have h2 := List.mem_of_mem_filter h1
    unfold reconcileRewrite at h2
    obtain ⟨src, hsrc, heq⟩ := List.mem_map.mp h2
    subst heq
    exact ⟨src, hsrc, rfl, rfl, rfl, rfl, rfl, rfl, rfl, rfl, rfl, rfl, rfl, rfl⟩

/-- Witness for C10 on the three-row 2020 fixture: the two-row output is an
order-preserving selection of the rewritten copy of the input. -/
theorem C10_frame_witness :
    outThree.Sublist (reconcileRewrite thirds2020 dfThree) :=
  (C10_frame usCal2020 10 range2020 thirds2020 dfThree outThree
      (by decide) (by decide)).1
